import Mathlib

/-! AVL tree (`AVL_tree.c`): shallow embedding and verification.

The C program manipulates heap nodes through `AVL_Node*` pointers.  The trees it
builds are proper trees (every node is allocated by `create_node` and linked
from exactly one parent), so a pointer is embedded as a value of the inductive
type `AVL_Node`: either `NULL` or a node carrying its five fields.

Modelling conventions.

* Dereferencing `NULL` is undefined behaviour in C.  Every function that can do
  so returns an `Option`, and `none` stands for "an absent node was
  dereferenced".
* `int` keys and heights are embedded as `Int`.  Keys are only ever compared.
  Heights are only incremented by one per level or per rotation, so they stay far
  inside the `int` range for any tree that fits in memory.
* `void* value` is an address, embedded as a `Nat`; the program never inspects it.
* `malloc` in `create_node` is assumed to succeed and `free` has no observable
  effect on the tree that is returned.
-/

namespace AVL

/-- Modelled from the spec: the struct `AVL_Node` is declared in the header
`AVL_tree.h`, which is not among the sources; the spec's data model gives a node a
`key`, a `value`, the subtrees `left` and `right` and a cached `height`, the five
fields the code reads and writes through `node->...`.  A pointer `AVL_Node*` is
either `NULL` or such a node. -/
inductive AVL_Node where
  | NULL : AVL_Node
  | mk (key : Int) (value : Nat) (height : Int) (left right : AVL_Node) : AVL_Node
deriving DecidableEq, Repr

open AVL_Node

/-- Modelled from the spec: the helper `max` used by `height` and `update_height` is
declared in the header `AVL_tree.h`, which is not among the sources; the spec
describes the cached height as `1 + max(height(left), height(right))`, the larger
of the two integers. -/
def max (a b : Int) : Int := if a > b then a else b

/-- The recursive `height`: number of nodes on the longest root-to-leaf path, `0`
for `NULL`. -/
def height : AVL_Node → Int
  | NULL => 0
  | mk _ _ _ l r => max (height l) (height r) + 1

/-- The expression `p != NULL ? p->height : 0` which `update_height` and
`balance_factor` compute for each child into `height_left` / `height_right`. -/
def child_height : AVL_Node → Int
  | NULL => 0
  | mk _ _ h _ _ => h

/-- The procedure `update_height`: rewrites the `height` field from the cached
heights of the two children; does nothing on `NULL`. -/
def update_height : AVL_Node → AVL_Node
  | NULL => NULL
  | mk k v _ l r => mk k v (max (child_height l) (child_height r) + 1) l r

/-- The function `balance_factor`: cached height of the left child minus cached
height of the right child, `0` for `NULL`. -/
def balance_factor : AVL_Node → Int
  | NULL => 0
  | mk _ _ _ l r => child_height l - child_height r

/-- The function `right_rotation`.  With `y = node` and `x = node->left`, the code
links `y->left = x->right; x->right = y;` and then calls `update_height(x)`
followed by `update_height(y)`: the new root `x` is recomputed while its right
child `y` still carries the height it had before the rotation. -/
def right_rotation : AVL_Node → Option AVL_Node
  | mk k v h (mk xk xv _ xl xr) r =>
      let y := mk k v h xr r
      some (mk xk xv (max (child_height xl) (child_height y) + 1) xl (update_height y))
  | _ => none

/-- The function `left_rotation`, mirror image of `right_rotation`: `x = node->right`,
`y->right = x->left; x->left = y; update_height(x); update_height(y);`. -/
def left_rotation : AVL_Node → Option AVL_Node
  | mk k v h l (mk xk xv _ xl xr) =>
      let y := mk k v h l xl
      some (mk xk xv (max (child_height y) (child_height xr) + 1) (update_height y) xr)
  | _ => none

/-- The function `right_left_rotation`:
`node->right = right_rotation(node->right); return left_rotation(node);`. -/
def right_left_rotation : AVL_Node → Option AVL_Node
  | NULL => none
  | mk k v h l r => (right_rotation r).bind fun r1 => left_rotation (mk k v h l r1)

/-- The function `left_right_rotation`:
`node->left = left_rotation(node->left); return right_rotation(node);`. -/
def left_right_rotation : AVL_Node → Option AVL_Node
  | NULL => none
  | mk k v h l r => (left_rotation l).bind fun l1 => right_rotation (mk k v h l1 r)

/-- The dispatcher `rotation`.  A balance factor in `{-1, 0, 1}` returns the node; a
left-heavy node (`balance > 1`) is sent to `right_left_rotation` when its left
child has a negative balance factor and to `right_rotation` otherwise; a
right-heavy node (`balance < -1`) is sent to `left_right_rotation` when its right
child has a positive balance factor and to `left_rotation` otherwise. -/
def rotation (node : AVL_Node) : Option AVL_Node :=
  let balance := balance_factor node
  if balance = 0 ∨ balance = 1 ∨ balance = -1 then some node
  else
    match node with
    | NULL => none
    | mk _ _ _ l r =>
      if balance > 1 then
        if balance_factor l < 0 then right_left_rotation node else right_rotation node
      else if balance < -1 then
        if balance_factor r > 0 then left_right_rotation node else left_rotation node
      else none

/-- The loop of `successor`: `while (current->left != NULL) current = current->left;`
started at `current`; a `NULL` start is dereferenced. -/
def leftmost : AVL_Node → Option AVL_Node
  | NULL => none
  | mk k v h NULL r => some (mk k v h NULL r)
  | mk _ _ _ (mk lk lv lh ll lr) _ => leftmost (mk lk lv lh ll lr)

/-- The function `successor`: the leftmost node below `node->right`. -/
def successor : AVL_Node → Option AVL_Node
  | NULL => none
  | mk _ _ _ _ r => leftmost r

/-- The function `create_node`: a leaf with cached height `1`. -/
def create_node (key : Int) (value : Nat) : AVL_Node := mk key value 1 NULL NULL

/-- The function `search`: the node carrying `key`, or `NULL`. -/
def search : AVL_Node → Int → AVL_Node
  | NULL, _ => NULL
  | mk k v h l r, key =>
    if k = key then mk k v h l r
    else if k < key then search r key
    else search l key

/-- The function `insert`. -/
def insert : AVL_Node → Int → Nat → Option AVL_Node
  | NULL, key, value => some (create_node key value)
  | mk k v h l r, key, value =>
    if k = key then some (mk k v h l r)
    else if k > key then
      (insert l key value).bind fun l1 => rotation (update_height (mk k v h l1 r))
    else
      (insert r key value).bind fun r1 => rotation (update_height (mk k v h l r1))

/-- The function `delete`.  In the two-children case the key and value of the
successor overwrite those of `node`, and the successor's key is then deleted from
the right subtree. -/
def delete : AVL_Node → Int → Option AVL_Node
  | NULL, _ => some NULL
  | mk k v h l r, key =>
    if k > key then
      (delete l key).bind fun l1 => rotation (update_height (mk k v h l1 r))
    else if k < key then
      (delete r key).bind fun r1 => rotation (update_height (mk k v h l r1))
    else
      match l with
      | NULL => some r
      | mk lk lv lh ll lr =>
        match r with
        | NULL => some (mk lk lv lh ll lr)
        | mk rk rv rh rl rr =>
          match successor (mk k v h (mk lk lv lh ll lr) (mk rk rv rh rl rr)) with
          | some (mk tk tv _ _ _) =>
            (delete (mk rk rv rh rl rr) tk).bind fun r1 =>
              rotation (update_height (mk tk tv h (mk lk lv lh ll lr) r1))
          | _ => none

/-- One public mutation: an `insert` or a `delete`. -/
inductive Op where
  | ins (key : Int) (value : Nat) : Op
  | del (key : Int) : Op
deriving DecidableEq, Repr

/-- Apply one operation to the current root, as a caller does with
`root = insert(root, key, value)` or `root = delete(root, key)`. -/
def applyOp (root : AVL_Node) : Op → Option AVL_Node
  | Op.ins key value => insert root key value
  | Op.del key => delete root key

/-- Apply a sequence of operations from left to right, starting at `root`. -/
def runOps : AVL_Node → List Op → Option AVL_Node
  | root, [] => some root
  | root, op :: ops => (applyOp root op).bind fun root1 => runOps root1 ops

/-- In-order sequence of the `(key, value)` entries of a tree. -/
def entries : AVL_Node → List (Int × Nat)
  | NULL => []
  | mk k v _ l r => entries l ++ (k, v) :: entries r

/-- In-order sequence of the keys of a tree. -/
def keys (t : AVL_Node) : List Int := (entries t).map Prod.fst

/-- BST invariant: at every node, every key of the left subtree is strictly smaller
than the node's key and every key of the right subtree is strictly larger. -/
def BST : AVL_Node → Prop
  | NULL => True
  | mk k _ _ l r => (∀ x ∈ keys l, x < k) ∧ (∀ x ∈ keys r, k < x) ∧ BST l ∧ BST r

/-- Height cache invariant: at every node the `height` field equals the recursive
`height` of the subtree rooted there. -/
def height_cached : AVL_Node → Prop
  | NULL => True
  | mk k v h l r => h = height (mk k v h l r) ∧ height_cached l ∧ height_cached r

/-- AVL balance invariant as the program measures it: at every node
`balance_factor`, computed from the cached heights of the children, lies in
`{-1, 0, 1}`. -/
def AVL_balanced : AVL_Node → Prop
  | NULL => True
  | mk k v h l r => |balance_factor (mk k v h l r)| ≤ 1 ∧ AVL_balanced l ∧ AVL_balanced r

/-- AVL balance invariant on the recursive heights: at every node
`height(left) - height(right)` lies in `{-1, 0, 1}`. -/
def height_balanced : AVL_Node → Prop
  | NULL => True
  | mk _ _ _ l r => |height l - height r| ≤ 1 ∧ height_balanced l ∧ height_balanced r

instance decidableBST : (t : AVL_Node) → Decidable (BST t)
  | NULL => isTrue trivial
  | mk _ _ _ l r =>
    have := decidableBST l
    have := decidableBST r
    by unfold BST; exact inferInstance

instance decidableHeightCached : (t : AVL_Node) → Decidable (height_cached t)
  | NULL => isTrue trivial
  | mk _ _ _ l r =>
    have := decidableHeightCached l
    have := decidableHeightCached r
    by unfold height_cached; exact inferInstance

instance decidableAVLBalanced : (t : AVL_Node) → Decidable (AVL_balanced t)
  | NULL => isTrue trivial
  | mk _ _ _ l r =>
    have := decidableAVLBalanced l
    have := decidableAVLBalanced r
    by unfold AVL_balanced; exact inferInstance

instance decidableHeightBalanced : (t : AVL_Node) → Decidable (height_balanced t)
  | NULL => isTrue trivial
  | mk _ _ _ l r =>
    have := decidableHeightBalanced l
    have := decidableHeightBalanced r
    by unfold height_balanced; exact inferInstance

/-- The tree the program holds after inserting keys `1, 2, ..., 7` in increasing
order, key `k` carrying value `11 * k`. -/
def tree_ascending_seven : AVL_Node :=
  mk 6 66 6
    (mk 4 44 3
      (mk 2 22 2 (mk 1 11 1 NULL NULL) (mk 3 33 1 NULL NULL))
      (mk 5 55 1 NULL NULL))
    (mk 7 77 1 NULL NULL)

/-- The tree the program holds after inserting keys `1, 2, 4, 3` in that order,
key `k` carrying value `11 * k`. -/
def tree_four : AVL_Node :=
  mk 2 22 3 (mk 1 11 1 NULL NULL) (mk 4 44 2 (mk 3 33 1 NULL NULL) NULL)

/-- The eight insertions `1, 3, 4, 5, 6, 2, 7, 8`, key `k` carrying value `11 * k`. -/
def eight_inserts : List Op :=
  [Op.ins 1 11, Op.ins 3 33, Op.ins 4 44, Op.ins 5 55, Op.ins 6 66, Op.ins 2 22,
   Op.ins 7 77, Op.ins 8 88]

/-- The tree the program holds after `eight_inserts`. -/
def tree_eight : AVL_Node :=
  mk 2 22 8 (mk 1 11 1 NULL NULL)
    (mk 3 33 7 NULL
      (mk 7 77 6
        (mk 5 55 2 (mk 4 44 1 NULL NULL) (mk 6 66 1 NULL NULL))
        (mk 8 88 1 NULL NULL)))

/-- The tree the program holds after inserting keys `1, 3, 4, 2, 5, 6` in that
order, key `k` carrying value `11 * k`. -/
def tree_six : AVL_Node :=
  mk 5 55 6
    (mk 3 33 3 (mk 1 11 2 NULL (mk 2 22 1 NULL NULL)) (mk 4 44 1 NULL NULL))
    (mk 6 66 1 NULL NULL)

/-- The nodes of a tree (its non-`NULL` subtrees), listed in order. -/
def nodes : AVL_Node → List AVL_Node
  | NULL => []
  | mk k v h l r => nodes l ++ mk k v h l r :: nodes r

/-- One line written by `printf("%*s %d [%d]\n", offset, "", node->key, node->height)`:
`offset` blanks of indentation, then the key and the cached height. -/
structure Line where
  indent : Int
  key : Int
  height : Int
deriving DecidableEq, Repr

/-- The function `print_tree_inorder_`: the lines it writes, first for the right
subtree at `offset + 1`, then for `node` at `offset`, then for the left subtree at
`offset + 1`. -/
def print_tree_inorder_ : AVL_Node → Int → List Line
  | NULL, _ => []
  | mk k _ h l r, offset =>
    print_tree_inorder_ r (offset + 1) ++ Line.mk offset k h :: print_tree_inorder_ l (offset + 1)

/-- The function `print_tree_inorder`: `print_tree_inorder_(node, 0)`. -/
def print_tree_inorder (node : AVL_Node) : List Line := print_tree_inorder_ node 0

/-- The listing the spec describes for the traversal: one `(depth, key, height)` line
per node, left subtree first, so that keys ascend in a BST; `depth` is the depth of
the subtree root. -/
def ascending_lines : AVL_Node → Int → List Line
  | NULL, _ => []
  | mk k _ h l r, depth =>
    ascending_lines l (depth + 1) ++ Line.mk depth k h :: ascending_lines r (depth + 1)

/-- The arguments of the calls `rotation(node)` made while `insert(node, key, value)`
runs, in the order of the calls (deepest first).  The call at a node is made once the
recursive `insert` below it has returned. -/
def insert_rotation_calls : AVL_Node → Int → Nat → List AVL_Node
  | NULL, _, _ => []
  | mk k v h l r, key, value =>
    if k = key then []
    else if k > key then
      insert_rotation_calls l key value ++
        match insert l key value with
        | some l1 => [update_height (mk k v h l1 r)]
        | none => []
    else
      insert_rotation_calls r key value ++
        match insert r key value with
        | some r1 => [update_height (mk k v h l r1)]
        | none => []

/-- The insertions of keys `1, 2, ..., n` in increasing order, key `k` carrying value
`value k`. -/
def ascending_inserts (value : Int → Nat) (n : Nat) : List Op :=
  (List.range n).map fun i : Nat => Op.ins ((i : Int) + 1) (value ((i : Int) + 1))

/-- The tree the program holds after inserting keys `5, 3, 8, 1, 4, 7, 9` in that
order, key `k` carrying value `10 * k`. -/
def scenario_tree : AVL_Node :=
  mk 5 50 3 (mk 3 30 2 (mk 1 10 1 NULL NULL) (mk 4 40 1 NULL NULL))
    (mk 8 80 2 (mk 7 70 1 NULL NULL) (mk 9 90 1 NULL NULL))

/-- The tree `delete` returns for key `5` on `scenario_tree`. -/
def scenario_tree_deleted : AVL_Node :=
  mk 7 70 3 (mk 3 30 2 (mk 1 10 1 NULL NULL) (mk 4 40 1 NULL NULL))
    (mk 8 80 2 NULL (mk 9 90 1 NULL NULL))

/-- A root `20` with the leaves `10` and `30`, all cached heights correct. -/
def tree_three : AVL_Node := mk 20 2 2 (mk 10 1 1 NULL NULL) (mk 30 3 1 NULL NULL)

/-! Rotations and rebalancing keep the in-order contents. -/

theorem entries_update_height (t : AVL_Node) : entries (update_height t) = entries t := by
  cases t <;> rfl

theorem entries_right_rotation {t t1 : AVL_Node} (h : right_rotation t = some t1) :
    entries t1 = entries t := by
  unfold right_rotation at h
  split at h
  · simp only [Option.some.injEq] at h
    subst h
    simp [entries, update_height]
  · exact absurd h (by simp)

theorem entries_left_rotation {t t1 : AVL_Node} (h : left_rotation t = some t1) :
    entries t1 = entries t := by
  unfold left_rotation at h
  split at h
  · simp only [Option.some.injEq] at h
    subst h
    simp [entries, update_height]
  · exact absurd h (by simp)

theorem entries_right_left_rotation {t t1 : AVL_Node} (h : right_left_rotation t = some t1) :
    entries t1 = entries t := by
  cases t with
  | NULL => simp [right_left_rotation] at h
  | mk k v ht l r =>
    simp only [right_left_rotation, Option.bind_eq_some] at h
    obtain ⟨r1, hr, hl⟩ := h
    rw [entries_left_rotation hl]
    simp [entries, entries_right_rotation hr]

theorem entries_left_right_rotation {t t1 : AVL_Node} (h : left_right_rotation t = some t1) :
    entries t1 = entries t := by
  cases t with
  | NULL => simp [left_right_rotation] at h
  | mk k v ht l r =>
    simp only [left_right_rotation, Option.bind_eq_some] at h
    obtain ⟨l1, hl, hr⟩ := h
    rw [entries_right_rotation hr]
    simp [entries, entries_left_rotation hl]

theorem entries_rotation {t t1 : AVL_Node} (h : rotation t = some t1) :
    entries t1 = entries t := by
  unfold rotation at h
  simp only at h
  split at h
  · simp only [Option.some.injEq] at h
    rw [h]
  · split at h
    · exact absurd h (by simp)
    · split at h
      · split at h
        · exact entries_right_left_rotation h
        · exact entries_right_rotation h
      · split at h
        · split at h
          · exact entries_left_right_rotation h
          · exact entries_left_rotation h
        · exact absurd h (by simp)

theorem keys_node (k : Int) (v : Nat) (h : Int) (l r : AVL_Node) :
    keys (mk k v h l r) = keys l ++ k :: keys r := by
  simp [keys, entries]

theorem BST_iff_pairwise (t : AVL_Node) : BST t ↔ (keys t).Pairwise (· < ·) := by
  induction t with
  | NULL => simp [BST, keys, entries]
  | mk k v h l r ihl ihr =>
    rw [keys_node, List.pairwise_append, List.pairwise_cons, BST, ihl, ihr]
    constructor
    · rintro ⟨hl, hr, pl, pr⟩
      refine ⟨pl, ⟨hr, pr⟩, ?_⟩
      intro a ha b hb
      rcases List.mem_cons.mp hb with rfl | hb
      · exact hl a ha
      · exact lt_trans (hl a ha) (hr b hb)
    · rintro ⟨pl, ⟨hr, pr⟩, hc⟩
      exact ⟨fun x hx => hc x hx k (List.mem_cons_self _ _), hr, pl, pr⟩

theorem BST_of_entries_eq {t t1 : AVL_Node} (h : entries t1 = entries t) (hb : BST t) :
    BST t1 := by
  rw [BST_iff_pairwise] at hb ⊢
  simpa [keys, h] using hb

theorem keys_rebalance {t t1 : AVL_Node} (h : rotation (update_height t) = some t1) :
    keys t1 = keys t := by
  simp [keys, entries_rotation h, entries_update_height]

theorem BST_rebalance {t t1 : AVL_Node} (h : rotation (update_height t) = some t1)
    (hb : BST t) : BST t1 :=
  BST_of_entries_eq (by rw [entries_rotation h, entries_update_height]) hb

theorem insert_spec (t : AVL_Node) (key : Int) (value : Nat) :
    ∀ t1, BST t → insert t key value = some t1 →
      BST t1 ∧ ∀ x, x ∈ keys t1 ↔ x = key ∨ x ∈ keys t := by
  induction t with
  | NULL =>
    intro t1 _ h
    simp only [insert, Option.some.injEq] at h
    subst h
    simp [create_node, BST, keys, entries]
  | mk k v ht l r ihl ihr =>
    intro t1 hb h
    obtain ⟨hl, hr, bl, br⟩ := hb
    unfold insert at h
    split at h
    · rename_i hk
      simp only [Option.some.injEq] at h
      subst h
      refine ⟨⟨hl, hr, bl, br⟩, fun x => ?_⟩
      rw [keys_node]
      constructor
      · exact fun hx => Or.inr hx
      · rintro (rfl | hx)
        · simp [hk]
        · exact hx
    · split at h
      · rename_i hne hgt
        simp only [Option.bind_eq_some] at h
        obtain ⟨l1, hi, hrot⟩ := h
        obtain ⟨bl1, kl1⟩ := ihl l1 bl hi
        have hb1 : BST (mk k v ht l1 r) := by
          refine ⟨fun x hx => ?_, hr, bl1, br⟩
          rcases (kl1 x).mp hx with rfl | hx
          · exact hgt
          · exact hl x hx
        refine ⟨BST_rebalance hrot hb1, fun x => ?_⟩
        rw [keys_rebalance hrot, keys_node, keys_node]
        simp only [List.mem_append, List.mem_cons, kl1]
        tauto
      · rename_i hne hgt
        simp only [Option.bind_eq_some] at h
        obtain ⟨r1, hi, hrot⟩ := h
        obtain ⟨br1, kr1⟩ := ihr r1 br hi
        have hlt : k < key := lt_of_le_of_ne (not_lt.mp hgt) hne
        have hb1 : BST (mk k v ht l r1) := by
          refine ⟨hl, fun x hx => ?_, bl, br1⟩
          rcases (kr1 x).mp hx with rfl | hx
          · exact hlt
          · exact hr x hx
        refine ⟨BST_rebalance hrot hb1, fun x => ?_⟩
        rw [keys_rebalance hrot, keys_node, keys_node]
        simp only [List.mem_append, List.mem_cons, kr1]
        tauto

theorem leftmost_spec (t : AVL_Node) :
    ∀ m, BST t → leftmost t = some m →
      ∃ k v h r, m = mk k v h NULL r ∧ k ∈ keys t ∧ ∀ x ∈ keys t, k ≤ x := by
  induction t with
  | NULL =>
    intro m _ h
    simp [leftmost] at h
  | mk k v ht l r ihl _ =>
    intro m hb h
    obtain ⟨hl, hr, bl, _⟩ := hb
    cases l with
    | NULL =>
      simp only [leftmost, Option.some.injEq] at h
      refine ⟨k, v, ht, r, h.symm, by simp [keys_node], fun x hx => ?_⟩
      rw [keys_node] at hx
      simp only [keys, entries, List.map_nil, List.nil_append, List.mem_cons] at hx
      rcases hx with rfl | hx
      · exact le_refl _
      · exact le_of_lt (hr x hx)
    | mk lk lv lh ll lr =>
      simp only [leftmost] at h
      obtain ⟨mk1, mv, mh, mr, hm, hmem, hmin⟩ := ihl m bl h
      refine ⟨mk1, mv, mh, mr, hm, ?_, fun x hx => ?_⟩
      · rw [keys_node k]
        exact List.mem_append_left _ hmem
      · rw [keys_node k] at hx
        rcases List.mem_append.mp hx with hx | hx
        · exact hmin x hx
        · have h1 : mk1 < k := hl mk1 hmem
          rcases List.mem_cons.mp hx with rfl | hx
          · exact le_of_lt h1
          · exact le_of_lt (lt_trans h1 (hr x hx))

theorem delete_spec (t : AVL_Node) :
    ∀ key t1, BST t → delete t key = some t1 →
      BST t1 ∧ ∀ x, x ∈ keys t1 ↔ x ∈ keys t ∧ x ≠ key := by
  induction t with
  | NULL =>
    intro key t1 _ h
    simp only [delete, Option.some.injEq] at h
    subst h
    simp [BST, keys, entries]
  | mk k v ht l r ihl ihr =>
    intro key t1 hb h
    obtain ⟨hl, hr, bl, br⟩ := hb
    unfold delete at h
    split at h
    · rename_i hgt
      simp only [Option.bind_eq_some] at h
      obtain ⟨l1, hd, hrot⟩ := h
      obtain ⟨bl1, kl1⟩ := ihl key l1 bl hd
      have hb1 : BST (mk k v ht l1 r) :=
        ⟨fun x hx => hl x ((kl1 x).mp hx).1, hr, bl1, br⟩
      refine ⟨BST_rebalance hrot hb1, fun x => ?_⟩
      rw [keys_rebalance hrot, keys_node, keys_node]
      simp only [List.mem_append, List.mem_cons, kl1]
      constructor
      · rintro (⟨h1, h2⟩ | rfl | h1)
        · exact ⟨Or.inl h1, h2⟩
        · exact ⟨Or.inr (Or.inl rfl), ne_of_gt hgt⟩
        · exact ⟨Or.inr (Or.inr h1), ne_of_gt (lt_trans hgt (hr x h1))⟩
      · rintro ⟨h1 | h1 | h1, h2⟩
        · exact Or.inl ⟨h1, h2⟩
        · exact Or.inr (Or.inl h1)
        · exact Or.inr (Or.inr h1)
    · split at h
      · rename_i hngt hlt
        simp only [Option.bind_eq_some] at h
        obtain ⟨r1, hd, hrot⟩ := h
        obtain ⟨br1, kr1⟩ := ihr key r1 br hd
        have hb1 : BST (mk k v ht l r1) :=
          ⟨hl, fun x hx => hr x ((kr1 x).mp hx).1, bl, br1⟩
        refine ⟨BST_rebalance hrot hb1, fun x => ?_⟩
        rw [keys_rebalance hrot, keys_node, keys_node]
        simp only [List.mem_append, List.mem_cons, kr1]
        constructor
        · rintro (h1 | rfl | ⟨h1, h2⟩)
          · exact ⟨Or.inl h1, ne_of_lt (lt_trans (hl x h1) hlt)⟩
          · exact ⟨Or.inr (Or.inl rfl), ne_of_lt hlt⟩
          · exact ⟨Or.inr (Or.inr h1), h2⟩
        · rintro ⟨h1 | h1 | h1, h2⟩
          · exact Or.inl h1
          · exact Or.inr (Or.inl h1)
          · exact Or.inr (Or.inr ⟨h1, h2⟩)
      · rename_i hngt hnlt
        have hk : k = key := le_antisymm (not_lt.mp hngt) (not_lt.mp hnlt)
        subst hk
        have hkl : ∀ x ∈ keys l, x ≠ k := fun x hx => ne_of_lt (hl x hx)
        have hkr : ∀ x ∈ keys r, x ≠ k := fun x hx => ne_of_gt (hr x hx)
        cases l with
        | NULL =>
          simp only [Option.some.injEq] at h
          subst h
          refine ⟨br, fun x => ?_⟩
          rw [keys_node]
          simp only [keys, entries, List.map_nil, List.nil_append, List.mem_cons]
          constructor
          · exact fun hx => ⟨Or.inr hx, hkr x hx⟩
          · rintro ⟨rfl | hx, h2⟩
            · exact absurd rfl h2
            · exact hx
        | mk lk lv lh ll lr =>
          cases r with
          | NULL =>
            simp only [Option.some.injEq] at h
            subst h
            refine ⟨bl, fun x => ?_⟩
            rw [keys_node k]
            simp only [keys, entries, List.map_nil, List.mem_append, List.mem_cons,
              List.not_mem_nil, or_false]
            constructor
            · exact fun hx => ⟨Or.inl hx, hkl x hx⟩
            · rintro ⟨hx | rfl, h2⟩
              · exact hx
              · exact absurd rfl h2
          | mk rk rv rh rl rr =>
            simp only [successor] at h
            split at h
            · rename_i tk tv th tl tr hs
              simp only [Option.bind_eq_some] at h
              obtain ⟨r1, hd, hrot⟩ := h
              obtain ⟨mk1, mv, mh, mr, hm, hmem, hmin⟩ := leftmost_spec _ _ br hs
              injection hm with e1 e2 e3 e4 e5
              subst e1
              obtain ⟨br1, kr1⟩ := ihr tk r1 br hd
              have hktk : k < tk := hr tk hmem
              have hb1 : BST (mk tk tv ht (mk lk lv lh ll lr) r1) := by
                refine ⟨fun x hx => lt_trans (hl x hx) hktk, fun x hx => ?_, bl, br1⟩
                obtain ⟨h1, h2⟩ := (kr1 x).mp hx
                exact lt_of_le_of_ne (hmin x h1) (Ne.symm h2)
              refine ⟨BST_rebalance hrot hb1, fun x => ?_⟩
              rw [keys_rebalance hrot, keys_node, keys_node k]
              simp only [List.mem_append, List.mem_cons, kr1]
              constructor
              · rintro (h1 | rfl | ⟨h1, h2⟩)
                · exact ⟨Or.inl h1, hkl x h1⟩
                · exact ⟨Or.inr (Or.inr hmem), ne_of_gt hktk⟩
                · exact ⟨Or.inr (Or.inr h1), hkr x h1⟩
              · rintro ⟨h1 | h1 | h1, h2⟩
                · exact Or.inl h1
                · exact absurd h1 h2
                · by_cases hx : x = tk
                  · exact Or.inr (Or.inl hx)
                  · exact Or.inr (Or.inr ⟨h1, hx⟩)
            · exact absurd h (by simp)

theorem applyOp_BST {t t1 : AVL_Node} (op : Op) (hb : BST t) (h : applyOp t op = some t1) :
    BST t1 := by
  cases op with
  | ins key value => exact (insert_spec t key value t1 hb h).1
  | del key => exact (delete_spec t key t1 hb h).1

theorem runOps_BST (ops : List Op) :
    ∀ t t1, BST t → runOps t ops = some t1 → BST t1 := by
  induction ops with
  | nil =>
    intro t t1 hb h
    simp only [runOps, Option.some.injEq] at h
    exact h ▸ hb
  | cons op ops ih =>
    intro t t1 hb h
    simp only [runOps, Option.bind_eq_some] at h
    obtain ⟨t2, h1, h2⟩ := h
    exact ih t2 t1 (applyOp_BST op hb h1) h2

/-! Invariants along sequences of operations. -/

/-- C1: AVL balance is not preserved by every sequence of operations.  Inserting the
keys `1, 2, ..., 7` in increasing order completes, and in the tree it returns the
root (key `6`) has balance factor `2`, both on the cached heights that
`balance_factor` reads and on the recursive heights of its two subtrees. -/
theorem insert_ascending_seven_unbalanced :
    runOps NULL [Op.ins 1 11, Op.ins 2 22, Op.ins 3 33, Op.ins 4 44, Op.ins 5 55,
        Op.ins 6 66, Op.ins 7 77] = some tree_ascending_seven ∧
      balance_factor tree_ascending_seven = 2 ∧
      height (mk 4 44 3 (mk 2 22 2 (mk 1 11 1 NULL NULL) (mk 3 33 1 NULL NULL))
          (mk 5 55 1 NULL NULL)) - height (mk 7 77 1 NULL NULL) = 2 ∧
      ¬ AVL_balanced tree_ascending_seven ∧ ¬ height_balanced tree_ascending_seven := by
  decide

/-- C2: the height cache is not preserved by every sequence of operations.  Inserting
the keys `1, 2, 3` in that order completes with one `left_rotation`; the root of the
tree returned carries cached height `4` while the recursive `height` of that tree
is `2`. -/
theorem insert_ascending_three_height_cache :
    runOps NULL [Op.ins 1 11, Op.ins 2 22, Op.ins 3 33]
        = some (mk 2 22 4 (mk 1 11 1 NULL NULL) (mk 3 33 1 NULL NULL)) ∧
      height (mk 2 22 4 (mk 1 11 1 NULL NULL) (mk 3 33 1 NULL NULL)) = 2 ∧
      ¬ height_cached (mk 2 22 4 (mk 1 11 1 NULL NULL) (mk 3 33 1 NULL NULL)) := by
  decide

/-- C3: BST ordering and key uniqueness are preserved.  Whatever tree a finite sequence
of `insert` and `delete` operations started at the empty tree returns, at every node
of it all keys of the left subtree are strictly smaller than the node's key and all
keys of the right subtree strictly larger, and no key occurs twice.  (Every prefix
of a sequence is a sequence, so this holds after each operation.) -/
theorem runOps_preserves_BST (ops : List Op) (t : AVL_Node)
    (h : runOps NULL ops = some t) : BST t ∧ (keys t).Nodup := by
  have hb : BST t := runOps_BST ops NULL t trivial h
  exact ⟨hb, ((BST_iff_pairwise t).mp hb).imp ne_of_lt⟩

/-- Instance of `runOps_preserves_BST`: seven insertions followed by the deletion of
the root key. -/
theorem runOps_preserves_BST_witness :
    runOps NULL [Op.ins 5 50, Op.ins 3 30, Op.ins 8 80, Op.ins 1 10, Op.ins 4 40,
        Op.ins 7 70, Op.ins 9 90, Op.del 5]
      = some (mk 7 70 3 (mk 3 30 2 (mk 1 10 1 NULL NULL) (mk 4 40 1 NULL NULL))
          (mk 8 80 2 NULL (mk 9 90 1 NULL NULL))) ∧
    (BST (mk 7 70 3 (mk 3 30 2 (mk 1 10 1 NULL NULL) (mk 4 40 1 NULL NULL))
          (mk 8 80 2 NULL (mk 9 90 1 NULL NULL))) ∧
      (keys (mk 7 70 3 (mk 3 30 2 (mk 1 10 1 NULL NULL) (mk 4 40 1 NULL NULL))
          (mk 8 80 2 NULL (mk 9 90 1 NULL NULL)))).Nodup) :=
  ⟨by decide,
    runOps_preserves_BST
      [Op.ins 5 50, Op.ins 3 30, Op.ins 8 80, Op.ins 1 10, Op.ins 4 40, Op.ins 7 70,
        Op.ins 9 90, Op.del 5]
      (mk 7 70 3 (mk 3 30 2 (mk 1 10 1 NULL NULL) (mk 4 40 1 NULL NULL))
        (mk 8 80 2 NULL (mk 9 90 1 NULL NULL)))
      (by decide)⟩

/-! Contents after insertions and deletions. -/

/-- C4: membership correctness fails for the distinct keys `3, 1, 2`.  After `3` and
`1` are inserted the tree is the node `3` with left child `1`; inserting `2` makes
node `3` left-heavy with a right-heavy left child, `rotation` calls
`right_left_rotation`, which applies `right_rotation` to the absent right child of
node `3`.  No tree is returned on which `search` could find the three keys. -/
theorem insert_3_1_2_dereferences_NULL (a b c : Nat) :
    runOps NULL [Op.ins 3 a, Op.ins 1 b] = some (mk 3 a 2 (mk 1 b 1 NULL NULL) NULL) ∧
      right_rotation NULL = none ∧
      insert (mk 3 a 2 (mk 1 b 1 NULL NULL) NULL) 2 c = none ∧
      runOps NULL [Op.ins 3 a, Op.ins 1 b, Op.ins 2 c] = none :=
  ⟨rfl, rfl, rfl, rfl⟩

/-- C5: deletion correctness fails on the tree built by inserting `1, 2, 4, 3`.  That
tree satisfies all three invariants and contains key `1`; `delete` of key `1` leaves
the root `2` right-heavy with a left-heavy right child, `rotation` calls
`left_right_rotation`, which applies `left_rotation` to the absent left child of the
root.  No tree is returned on which `search` could find keys `2, 3, 4`. -/
theorem delete_present_key_dereferences_NULL :
    runOps NULL [Op.ins 1 11, Op.ins 2 22, Op.ins 4 44, Op.ins 3 33] = some tree_four ∧
      (BST tree_four ∧ height_cached tree_four ∧ AVL_balanced tree_four) ∧
      search tree_four 1 = mk 1 11 1 NULL NULL ∧
      delete tree_four 1 = none := by
  decide

/-- C6: first-write-wins fails on the tree built by `eight_inserts`.  The tree contains
key `4` with value `44`; inserting key `4` again re-runs `update_height` and
`rotation` on the ancestors of node `4`, and at node `3` (no left child) `rotation`
calls `left_right_rotation`, which dereferences the absent left child.  No tree is
returned on which `search` could still find value `44`. -/
theorem insert_present_key_dereferences_NULL :
    runOps NULL eight_inserts = some tree_eight ∧
      search tree_eight 4 = mk 4 44 1 NULL NULL ∧
      insert tree_eight 4 0 = none := by
  decide

/-- C7: a duplicate-key insert does not return its input unchanged.  After inserting
`10, 20, 30` the root carries cached height `4`; inserting key `10` again returns
the tree with cached height `2` at the root.  After inserting `1, 3, 4, 2, 5, 6`
the root is key `5`; inserting key `1` again returns a tree whose root is key `3`. -/
theorem insert_present_key_changes_tree :
    (runOps NULL [Op.ins 10 1, Op.ins 20 2, Op.ins 30 3]
        = some (mk 20 2 4 (mk 10 1 1 NULL NULL) (mk 30 3 1 NULL NULL)) ∧
      insert (mk 20 2 4 (mk 10 1 1 NULL NULL) (mk 30 3 1 NULL NULL)) 10 9
        = some (mk 20 2 2 (mk 10 1 1 NULL NULL) (mk 30 3 1 NULL NULL))) ∧
    (runOps NULL [Op.ins 1 11, Op.ins 3 33, Op.ins 4 44, Op.ins 2 22, Op.ins 5 55,
        Op.ins 6 66] = some tree_six ∧
      insert tree_six 1 0
        = some (mk 3 33 5 (mk 1 11 2 NULL (mk 2 22 1 NULL NULL))
            (mk 5 55 2 (mk 4 44 1 NULL NULL) (mk 6 66 1 NULL NULL)))) := by
  decide

/-- C8: deleting an absent key is not always a no-op that returns a tree.  Key `9` does
not occur in the tree built by `eight_inserts`; `delete` of key `9` re-runs
`update_height` and `rotation` on the right spine, and at node `3` (no left child)
`rotation` calls `left_right_rotation`, which dereferences the absent left child. -/
theorem delete_absent_key_dereferences_NULL :
    runOps NULL eight_inserts = some tree_eight ∧
      9 ∉ keys tree_eight ∧
      delete tree_eight 9 = none := by
  decide

/-! Concrete scenarios. -/

/-- C9: inserting keys `10, 20, 30` in that order yields root key `20` with the leaves
`10` and `30` as children, cached height `1` at both children and balance factor
`0` at the root, but the cached height at the root is `4`, not `2`: `left_rotation`
recomputes the new root `20` while its left child `10` still carries the height `3`
it had above the rotation. -/
theorem scenario_insert_10_20_30 (a b c : Nat) :
    runOps NULL [Op.ins 10 a, Op.ins 20 b, Op.ins 30 c]
        = some (mk 20 b 4 (mk 10 a 1 NULL NULL) (mk 30 c 1 NULL NULL)) ∧
      balance_factor (mk 20 b 4 (mk 10 a 1 NULL NULL) (mk 30 c 1 NULL NULL)) = 0 ∧
      height (mk 20 b 4 (mk 10 a 1 NULL NULL) (mk 30 c 1 NULL NULL)) = 2 :=
  ⟨rfl, rfl, rfl⟩

/-- C10: inserting keys `5, 3, 8, 1, 4, 7, 9` in that order (with any values) and then
deleting key `5` returns a tree whose root key is `7`, whose keys are exactly
`1, 3, 4, 7, 8, 9`, and in which every node has a balance factor of absolute value
at most `1`, on the cached heights and on the recursive heights alike. -/
theorem scenario_delete_5 (v1 v3 v4 v5 v7 v8 v9 : Nat) :
    ∃ t : AVL_Node,
      runOps NULL [Op.ins 5 v5, Op.ins 3 v3, Op.ins 8 v8, Op.ins 1 v1, Op.ins 4 v4,
        Op.ins 7 v7, Op.ins 9 v9, Op.del 5] = some t ∧
      (∃ h l r, t = mk 7 v7 h l r) ∧
      keys t = [1, 3, 4, 7, 8, 9] ∧
      AVL_balanced t ∧ height_balanced t := by
  refine ⟨mk 7 v7 3 (mk 3 v3 2 (mk 1 v1 1 NULL NULL) (mk 4 v4 1 NULL NULL))
    (mk 8 v8 2 NULL (mk 9 v9 1 NULL NULL)), rfl, ⟨_, _, _, rfl⟩, rfl, ?_, ?_⟩
  · simp [AVL_balanced, balance_factor, child_height]
  · simp [height_balanced, height, max]

/-! Sequences, search, traversal and contents: supporting lemmas. -/

theorem runOps_append (a b : List Op) :
    ∀ t, runOps t (a ++ b) = (runOps t a).bind fun t1 => runOps t1 b := by
  induction a with
  | nil => intro t; rfl
  | cons op a ih =>
    intro t
    simp only [List.cons_append, runOps]
    cases applyOp t op with
    | none => rfl
    | some t1 => exact ih t1

theorem ascending_inserts_add (value : Int → Nat) (m n : Nat) :
    ascending_inserts value (m + n) = ascending_inserts value m ++
      (List.range n).map fun i : Nat =>
        Op.ins (((m + i : Nat) : Int) + 1) (value (((m + i : Nat) : Int) + 1)) := by
  unfold ascending_inserts
  rw [List.range_add, List.map_append, List.map_map]
  rfl


theorem mem_keys_of_mem_entries {t : AVL_Node} {p : Int × Nat} (h : p ∈ entries t) :
    p.1 ∈ keys t :=
  List.mem_map_of_mem Prod.fst h

theorem entries_of_mem_nodes (t : AVL_Node) :
    ∀ k v h l r, mk k v h l r ∈ nodes t → (k, v) ∈ entries t := by
  induction t with
  | NULL => intro k v h l r hm; simp [nodes] at hm
  | mk k0 v0 h0 l0 r0 ihl ihr =>
    intro k v h l r hm
    simp only [nodes, List.mem_append, List.mem_cons] at hm
    simp only [entries, List.mem_append, List.mem_cons]
    rcases hm with hm | hm | hm
    · exact Or.inl (ihl k v h l r hm)
    · injection hm with e1 e2
      exact Or.inr (Or.inl (by rw [e1, e2]))
    · exact Or.inr (Or.inr (ihr k v h l r hm))

theorem search_correct (t : AVL_Node) (key : Int) :
    BST t →
      (key ∈ keys t → ∃ v h l r, search t key = mk key v h l r ∧ mk key v h l r ∈ nodes t) ∧
      (search t key = NULL ↔ key ∉ keys t) := by
  induction t with
  | NULL =>
    intro _
    simp [search, keys, entries]
  | mk k v h l r ihl ihr =>
    intro hb
    obtain ⟨hl, hr, bl, br⟩ := hb
    obtain ⟨il1, il2⟩ := ihl bl
    obtain ⟨ir1, ir2⟩ := ihr br
    unfold search
    by_cases hk : k = key
    · subst hk
      simp only [if_true]
      refine ⟨fun _ => ⟨v, h, l, r, rfl, ?_⟩, ?_⟩
      · simp [nodes]
      · simp [keys_node]
    · simp only [hk, if_false]
      by_cases hlt : k < key
      · simp only [hlt, if_true]
        have hnl : key ∉ keys l := fun hm => absurd (hl key hm) (not_lt.mpr (le_of_lt hlt))
        have hiff : key ∈ keys (mk k v h l r) ↔ key ∈ keys r := by
          rw [keys_node]
          simp only [List.mem_append, List.mem_cons]
          constructor
          · rintro (h1 | h1 | h1)
            · exact absurd h1 hnl
            · exact absurd h1.symm hk
            · exact h1
          · exact fun h1 => Or.inr (Or.inr h1)
        refine ⟨fun hm => ?_, by rw [ir2, hiff]⟩
        obtain ⟨v1, h1, l1, r1, hs, hn⟩ := ir1 (hiff.mp hm)
        exact ⟨v1, h1, l1, r1, hs, by simp [nodes, hn]⟩
      · simp only [hlt, if_false]
        have hgt : key < k := lt_of_le_of_ne (not_lt.mp hlt) (Ne.symm hk)
        have hnr : key ∉ keys r := fun hm => absurd (hr key hm) (not_lt.mpr (le_of_lt hgt))
        have hiff : key ∈ keys (mk k v h l r) ↔ key ∈ keys l := by
          rw [keys_node]
          simp only [List.mem_append, List.mem_cons]
          constructor
          · rintro (h1 | h1 | h1)
            · exact h1
            · exact absurd h1.symm hk
            · exact absurd h1 hnr
          · exact fun h1 => Or.inl h1
        refine ⟨fun hm => ?_, by rw [il2, hiff]⟩
        obtain ⟨v1, h1, l1, r1, hs, hn⟩ := il1 (hiff.mp hm)
        exact ⟨v1, h1, l1, r1, hs, by simp [nodes, hn]⟩

theorem leftmost_eq_head (t : AVL_Node) : leftmost t = (nodes t).head? := by
  induction t with
  | NULL => rfl
  | mk k v h l r ihl _ =>
    cases l with
    | NULL => simp [leftmost, nodes]
    | mk lk lv lh ll lr =>
      simp only [leftmost]
      rw [ihl]
      simp only [nodes]
      cases hn : nodes ll ++ mk lk lv lh ll lr :: nodes lr with
      | nil => simp at hn
      | cons a rest =>
        have : nodes ll ++ mk lk lv lh ll lr :: nodes lr = a :: rest := hn
        simp [nodes, this]

theorem print_eq_reverse (t : AVL_Node) :
    ∀ d, print_tree_inorder_ t d = (ascending_lines t d).reverse := by
  induction t with
  | NULL => intro d; rfl
  | mk k v h l r ihl ihr =>
    intro d
    simp [print_tree_inorder_, ascending_lines, ihl, ihr]

theorem ascending_lines_keys (t : AVL_Node) :
    ∀ d, (ascending_lines t d).map Line.key = keys t := by
  induction t with
  | NULL => intro d; rfl
  | mk k v h l r ihl ihr =>
    intro d
    simp [ascending_lines, keys_node, ihl, ihr]

theorem filter_lt_self {t : AVL_Node} {key : Int} (h : ∀ x ∈ keys t, x < key) :
    (entries t).filter (fun p => decide (p.1 < key)) = entries t :=
  List.filter_eq_self.mpr fun p hp => decide_eq_true (h p.1 (mem_keys_of_mem_entries hp))

theorem filter_lt_nil {t : AVL_Node} {key : Int} (h : ∀ x ∈ keys t, key < x) :
    (entries t).filter (fun p => decide (p.1 < key)) = [] :=
  List.filter_eq_nil_iff.mpr fun p hp => by
    simpa using le_of_lt (h p.1 (mem_keys_of_mem_entries hp))

theorem filter_gt_self {t : AVL_Node} {key : Int} (h : ∀ x ∈ keys t, key < x) :
    (entries t).filter (fun p => decide (key < p.1)) = entries t :=
  List.filter_eq_self.mpr fun p hp => decide_eq_true (h p.1 (mem_keys_of_mem_entries hp))

theorem filter_gt_nil {t : AVL_Node} {key : Int} (h : ∀ x ∈ keys t, x < key) :
    (entries t).filter (fun p => decide (key < p.1)) = [] :=
  List.filter_eq_nil_iff.mpr fun p hp => by
    simpa using le_of_lt (h p.1 (mem_keys_of_mem_entries hp))

theorem filter_ne_self {t : AVL_Node} {key : Int} (h : ∀ x ∈ keys t, x ≠ key) :
    (entries t).filter (fun p => decide (p.1 ≠ key)) = entries t :=
  List.filter_eq_self.mpr fun p hp => decide_eq_true (h p.1 (mem_keys_of_mem_entries hp))

theorem entries_rebalance {t t1 : AVL_Node} (h : rotation (update_height t) = some t1) :
    entries t1 = entries t := by
  rw [entries_rotation h, entries_update_height]

theorem insert_entries (t : AVL_Node) (key : Int) (value : Nat) :
    ∀ t1, BST t → insert t key value = some t1 →
      (key ∈ keys t → entries t1 = entries t) ∧
      (key ∉ keys t → entries t1 =
        (entries t).filter (fun p => decide (p.1 < key)) ++
          (key, value) :: (entries t).filter (fun p => decide (key < p.1))) := by
  induction t with
  | NULL =>
    intro t1 _ h
    simp only [insert, Option.some.injEq] at h
    subst h
    simp [create_node, keys, entries]
  | mk k v ht l r ihl ihr =>
    intro t1 hb h
    obtain ⟨hl, hr, bl, br⟩ := hb
    unfold insert at h
    split at h
    · rename_i hk
      simp only [Option.some.injEq] at h
      subst h
      subst hk
      exact ⟨fun _ => rfl, fun hn => absurd (by simp [keys_node]) hn⟩
    · split at h
      · rename_i hne hgt
        simp only [Option.bind_eq_some] at h
        obtain ⟨l1, hi, hrot⟩ := h
        obtain ⟨i1, i2⟩ := ihl l1 bl hi
        have hgt1 : key < k := hgt
        have hrk : ∀ x ∈ keys r, key < x := fun x hx => lt_trans hgt1 (hr x hx)
        have hnr : key ∉ keys r := fun hm => lt_irrefl _ (hrk key hm)
        have hiff : key ∈ keys (mk k v ht l r) ↔ key ∈ keys l := by
          rw [keys_node]
          simp only [List.mem_append, List.mem_cons]
          constructor
          · rintro (h1 | h1 | h1)
            · exact h1
            · exact absurd h1.symm hne
            · exact absurd h1 hnr
          · exact fun h1 => Or.inl h1
        rw [entries_rebalance hrot, hiff]
        constructor
        · intro hm
          simp only [entries, i1 hm]
        · intro hm
          simp only [entries, i2 hm, List.filter_append, List.filter_cons, filter_lt_nil hrk,
            filter_gt_self hrk, decide_eq_true hgt1,
            decide_eq_false (not_lt.mpr (le_of_lt hgt1)), List.append_assoc,
            List.cons_append, if_true, Bool.false_eq_true, if_false, List.append_nil]
      · rename_i hne hgt
        simp only [Option.bind_eq_some] at h
        obtain ⟨r1, hi, hrot⟩ := h
        obtain ⟨i1, i2⟩ := ihr r1 br hi
        have hlt : k < key := lt_of_le_of_ne (not_lt.mp hgt) hne
        have hlk : ∀ x ∈ keys l, x < key := fun x hx => lt_trans (hl x hx) hlt
        have hnl : key ∉ keys l := fun hm => lt_irrefl _ (hlk key hm)
        have hiff : key ∈ keys (mk k v ht l r) ↔ key ∈ keys r := by
          rw [keys_node]
          simp only [List.mem_append, List.mem_cons]
          constructor
          · rintro (h1 | h1 | h1)
            · exact absurd h1 hnl
            · exact absurd h1.symm hne
            · exact h1
          · exact fun h1 => Or.inr (Or.inr h1)
        rw [entries_rebalance hrot, hiff]
        constructor
        · intro hm
          simp only [entries, i1 hm]
        · intro hm
          simp only [entries, i2 hm, List.filter_append, List.filter_cons, filter_lt_self hlk,
            filter_gt_nil hlk, decide_eq_true hlt,
            decide_eq_false (not_lt.mpr (le_of_lt hlt)), List.append_assoc,
            List.cons_append, if_true, Bool.false_eq_true, if_false, List.nil_append]

theorem leftmost_entries (t : AVL_Node) :
    ∀ tk tv th tl tr, BST t → leftmost t = some (mk tk tv th tl tr) →
      (tk, tv) :: (entries t).filter (fun p => decide (p.1 ≠ tk)) = entries t := by
  induction t with
  | NULL =>
    intro tk tv th tl tr _ h
    simp [leftmost] at h
  | mk k v ht l r ihl _ =>
    intro tk tv th tl tr hb h
    obtain ⟨hl, hr, bl, _⟩ := hb
    cases l with
    | NULL =>
      simp only [leftmost, Option.some.injEq] at h
      injection h with e1 e2
      subst e1
      subst e2
      have hrk : ∀ x ∈ keys r, x ≠ k := fun x hx => ne_of_gt (hr x hx)
      have hkk : decide (k ≠ k) = false := decide_eq_false (fun hne => hne rfl)
      rw [entries, entries, List.nil_append, List.filter_cons, hkk, filter_ne_self hrk]
      rfl
    | mk lk lv lh ll lr =>
      simp only [leftmost] at h
      have ih := ihl tk tv th tl tr bl h
      obtain ⟨_, _, _, _, hm, hmem, _⟩ := leftmost_spec _ _ bl h
      injection hm with e1
      subst e1
      have htk : tk < k := hl tk hmem
      have hrk : ∀ x ∈ keys r, x ≠ tk := fun x hx => ne_of_gt (lt_trans htk (hr x hx))
      have hkne : k ≠ tk := ne_of_gt htk
      rw [entries, List.filter_append, List.filter_cons, filter_ne_self hrk,
        if_pos (decide_eq_true hkne), ← List.cons_append, ih]

theorem delete_entries (t : AVL_Node) :
    ∀ key t1, BST t → delete t key = some t1 →
      entries t1 = (entries t).filter (fun p => decide (p.1 ≠ key)) := by
  induction t with
  | NULL =>
    intro key t1 _ h
    simp only [delete, Option.some.injEq] at h
    subst h
    rfl
  | mk k v ht l r ihl ihr =>
    intro key t1 hb h
    obtain ⟨hl, hr, bl, br⟩ := hb
    unfold delete at h
    split at h
    · rename_i hgt
      simp only [Option.bind_eq_some] at h
      obtain ⟨l1, hd, hrot⟩ := h
      have hgt1 : key < k := hgt
      have hrk : ∀ x ∈ keys r, x ≠ key := fun x hx => ne_of_gt (lt_trans hgt1 (hr x hx))
      have hkne : k ≠ key := ne_of_gt hgt1
      rw [entries_rebalance hrot, entries, entries, ihl key l1 bl hd, List.filter_append,
        List.filter_cons, filter_ne_self hrk, if_pos (decide_eq_true hkne)]
    · split at h
      · rename_i hngt hlt
        simp only [Option.bind_eq_some] at h
        obtain ⟨r1, hd, hrot⟩ := h
        have hlk : ∀ x ∈ keys l, x ≠ key := fun x hx => ne_of_lt (lt_trans (hl x hx) hlt)
        have hkne : k ≠ key := ne_of_lt hlt
        rw [entries_rebalance hrot, entries, entries, ihr key r1 br hd, List.filter_append,
          List.filter_cons, filter_ne_self hlk, if_pos (decide_eq_true hkne)]
      · rename_i hngt hnlt
        have hk : k = key := le_antisymm (not_lt.mp hngt) (not_lt.mp hnlt)
        subst hk
        have hkl : ∀ x ∈ keys l, x ≠ k := fun x hx => ne_of_lt (hl x hx)
        have hkr : ∀ x ∈ keys r, x ≠ k := fun x hx => ne_of_gt (hr x hx)
        have hkk : decide (k ≠ k) = false := decide_eq_false (fun hne => hne rfl)
        have hrhs : (entries (mk k v ht l r)).filter (fun p => decide (p.1 ≠ k))
            = entries l ++ entries r := by
          rw [entries, List.filter_append, List.filter_cons, filter_ne_self hkl,
            filter_ne_self hkr, hkk]
          rfl
        rw [hrhs]
        cases l with
        | NULL =>
          simp only [Option.some.injEq] at h
          subst h
          rfl
        | mk lk lv lh ll lr =>
          cases r with
          | NULL =>
            simp only [Option.some.injEq] at h
            subst h
            simp [entries]
          | mk rk rv rh rl rr =>
            simp only [successor] at h
            split at h
            · rename_i tk tv th tl tr hs
              simp only [Option.bind_eq_some] at h
              obtain ⟨r1, hd, hrot⟩ := h
              rw [entries_rebalance hrot, entries.eq_2 tk, ihr tk r1 br hd,
                leftmost_entries _ tk tv th tl tr br hs]
            · exact absurd h (by simp)

/-! The height bound and the search. -/

/-- C11: the height bound for the keys `1, 2, ..., 1000` is not met, because the
insertions do not complete.  After the first eleven insertions the program holds the
tree shown; inserting key `12` dereferences `NULL`, so the first twelve insertions, and
with them the thousand, return no tree whose height could be measured. -/
theorem insert_ascending_thousand_dereferences_NULL (value : Int → Nat) :
    runOps NULL (ascending_inserts value 11)
        = some (mk 5 (value 5) 8
            (mk 4 (value 4) 3
              (mk 2 (value 2) 2 (mk 1 (value 1) 1 NULL NULL) (mk 3 (value 3) 1 NULL NULL))
              NULL)
            (mk 6 (value 6) 7 NULL
              (mk 10 (value 10) 6
                (mk 8 (value 8) 2 (mk 7 (value 7) 1 NULL NULL) (mk 9 (value 9) 1 NULL NULL))
                (mk 11 (value 11) 1 NULL NULL)))) ∧
      runOps NULL (ascending_inserts value 12) = none ∧
      runOps NULL (ascending_inserts value 1000) = none := by
  have h12 : runOps NULL (ascending_inserts value 12) = none := rfl
  refine ⟨rfl, h12, ?_⟩
  rw [show (1000 : Nat) = 12 + 988 from rfl, ascending_inserts_add, runOps_append, h12]
  rfl

/-- C12: `search` is BST binary search.  On a tree satisfying the BST invariant,
`search` returns a node of the tree whose key is `key` whenever `key` occurs in the
tree, and returns `NULL` if and only if `key` does not occur in it. -/
theorem search_is_binary_search (t : AVL_Node) (key : Int) (hb : BST t) :
    (key ∈ keys t →
        ∃ v h l r, search t key = mk key v h l r ∧ mk key v h l r ∈ nodes t) ∧
      (search t key = NULL ↔ key ∉ keys t) :=
  search_correct t key hb

/-- Instance of `search_is_binary_search`: key `30` in `tree_three`. -/
theorem search_is_binary_search_witness :
    BST tree_three ∧
    ((30 ∈ keys tree_three →
        ∃ v h l r, search tree_three 30 = mk 30 v h l r ∧ mk 30 v h l r ∈ nodes tree_three) ∧
      (search tree_three 30 = NULL ↔ 30 ∉ keys tree_three)) :=
  ⟨by decide, search_is_binary_search tree_three 30 (by decide)⟩

/-! Safety of the rotations and the traversal. -/

/-- C13: the rotation preconditions are violated by the sequence `insert 1, 3, 2`.
Inserting `2` below node `3` leaves node `1` with balance factor `-2` and its right
child `3` with balance factor `1`; `rotation` calls `left_right_rotation`, which
calls `left_rotation` on the absent left child of node `1`, and the insertion returns
no tree. -/
theorem insert_1_3_2_rotates_absent_child (a b c : Nat) :
    runOps NULL [Op.ins 1 a, Op.ins 3 b] = some (mk 1 a 2 NULL (mk 3 b 1 NULL NULL)) ∧
      insert (mk 3 b 1 NULL NULL) 2 c = some (mk 3 b 2 (mk 2 c 1 NULL NULL) NULL) ∧
      update_height (mk 1 a 2 NULL (mk 3 b 2 (mk 2 c 1 NULL NULL) NULL))
        = mk 1 a 3 NULL (mk 3 b 2 (mk 2 c 1 NULL NULL) NULL) ∧
      balance_factor (mk 1 a 3 NULL (mk 3 b 2 (mk 2 c 1 NULL NULL) NULL)) = -2 ∧
      balance_factor (mk 3 b 2 (mk 2 c 1 NULL NULL) NULL) = 1 ∧
      rotation (mk 1 a 3 NULL (mk 3 b 2 (mk 2 c 1 NULL NULL) NULL))
        = left_right_rotation (mk 1 a 3 NULL (mk 3 b 2 (mk 2 c 1 NULL NULL) NULL)) ∧
      left_right_rotation (mk 1 a 3 NULL (mk 3 b 2 (mk 2 c 1 NULL NULL) NULL))
        = (left_rotation NULL).bind
            (fun l1 => right_rotation (mk 1 a 3 l1 (mk 3 b 2 (mk 2 c 1 NULL NULL) NULL))) ∧
      left_rotation NULL = none ∧
      insert (mk 1 a 2 NULL (mk 3 b 1 NULL NULL)) 2 c = none ∧
      runOps NULL [Op.ins 1 a, Op.ins 3 b, Op.ins 2 c] = none :=
  ⟨rfl, rfl, rfl, rfl, rfl, rfl, rfl, rfl, rfl, rfl⟩

/-- C14 as stated fails: on the BST `tree_three` (root `20`, leaves `10` and `30`)
`print_tree_inorder` writes the keys `30, 20, 10`, which are not in ascending
order. -/
theorem print_tree_inorder_not_ascending :
    BST tree_three ∧
      print_tree_inorder tree_three = [Line.mk 1 30 1, Line.mk 0 20 2, Line.mk 1 10 1] ∧
      ¬ ((print_tree_inorder tree_three).map Line.key).Pairwise (· < ·) := by
  decide

/-- C14, as the code has it: on a tree satisfying the BST invariant,
`print_tree_inorder` writes one line per node, each indented by the node's depth and
showing its key and cached height, with the right subtree first: the output is the
ascending listing read backwards, so the keys appear in strictly descending
order. -/
theorem print_tree_inorder_descending (t : AVL_Node) (hb : BST t) :
    print_tree_inorder t = (ascending_lines t 0).reverse ∧
      (print_tree_inorder t).map Line.key = (keys t).reverse ∧
      ((print_tree_inorder t).map Line.key).Pairwise (· > ·) := by
  have h1 : print_tree_inorder t = (ascending_lines t 0).reverse := print_eq_reverse t 0
  have h2 : (print_tree_inorder t).map Line.key = (keys t).reverse := by
    rw [h1, List.map_reverse, ascending_lines_keys]
  refine ⟨h1, h2, ?_⟩
  rw [h2, List.pairwise_reverse]
  exact (BST_iff_pairwise t).mp hb

/-- Instance of `print_tree_inorder_descending`: the tree `tree_three`. -/
theorem print_tree_inorder_descending_witness :
    BST tree_three ∧
    (print_tree_inorder tree_three = (ascending_lines tree_three 0).reverse ∧
      (print_tree_inorder tree_three).map Line.key = (keys tree_three).reverse ∧
      ((print_tree_inorder tree_three).map Line.key).Pairwise (· > ·)) :=
  ⟨by decide, print_tree_inorder_descending tree_three (by decide)⟩

/-! The rotation engine. -/

/-- C15: the single-step imbalance bound fails while inserting `1, 2, 3, 4, 5`.  The
three calls of `rotation` made by the fifth insertion receive nodes of balance factor
`-1`, `-2` and `-3`: after the `left_rotation` at node `3` the new subtree root `4`
carries cached height `4`, against height `1` on the left of the root.  The
insertion itself completes. -/
theorem insert_ascending_five_imbalance_three :
    runOps NULL [Op.ins 1 11, Op.ins 2 22, Op.ins 3 33, Op.ins 4 44]
        = some (mk 2 22 3 (mk 1 11 1 NULL NULL) (mk 3 33 2 NULL (mk 4 44 1 NULL NULL))) ∧
      insert_rotation_calls
          (mk 2 22 3 (mk 1 11 1 NULL NULL) (mk 3 33 2 NULL (mk 4 44 1 NULL NULL))) 5 55
        = [mk 4 44 2 NULL (mk 5 55 1 NULL NULL),
           mk 3 33 3 NULL (mk 4 44 2 NULL (mk 5 55 1 NULL NULL)),
           mk 2 22 5 (mk 1 11 1 NULL NULL)
             (mk 4 44 4 (mk 3 33 1 NULL NULL) (mk 5 55 1 NULL NULL))] ∧
      balance_factor (mk 2 22 5 (mk 1 11 1 NULL NULL)
          (mk 4 44 4 (mk 3 33 1 NULL NULL) (mk 5 55 1 NULL NULL))) = -3 ∧
      insert (mk 2 22 3 (mk 1 11 1 NULL NULL) (mk 3 33 2 NULL (mk 4 44 1 NULL NULL))) 5 55
        = some (mk 4 44 6 (mk 2 22 2 (mk 1 11 1 NULL NULL) (mk 3 33 1 NULL NULL))
            (mk 5 55 1 NULL NULL)) := by
  decide

/-- C16: the dispatcher does not rebalance the left-heavy zig-zag.  The node `3` with
left child `1`, itself with right child `2`, has correct cached heights throughout,
balanced subtrees and balance factor exactly `2`, its left child being right-heavy;
`rotation` is not defined on it: it calls `right_left_rotation`, which rotates the
absent right child. -/
theorem rotation_zigzag_dereferences_NULL (a b c : Nat) :
    (height_cached (mk 3 a 3 (mk 1 b 2 NULL (mk 2 c 1 NULL NULL)) NULL) ∧
      AVL_balanced (mk 1 b 2 NULL (mk 2 c 1 NULL NULL)) ∧ AVL_balanced NULL ∧
      balance_factor (mk 3 a 3 (mk 1 b 2 NULL (mk 2 c 1 NULL NULL)) NULL) = 2 ∧
      balance_factor (mk 1 b 2 NULL (mk 2 c 1 NULL NULL)) = -1) ∧
    rotation (mk 3 a 3 (mk 1 b 2 NULL (mk 2 c 1 NULL NULL)) NULL) = none := by
  refine ⟨⟨?_, ?_, trivial, rfl, rfl⟩, rfl⟩
  · simp [height_cached, height, max]
  · simp [AVL_balanced, balance_factor, child_height]

/-- C17: rotations preserve BST order.  On a node whose required children are present
(the left child for `right_rotation`, the right child for `left_rotation`, the right
child and its left child for `right_left_rotation`, the left child and its right
child for `left_right_rotation`) each rotation returns a tree whose in-order
sequence of `(key, value)` entries is that of its input, so that a BST stays a
BST. -/
theorem rotations_preserve_entries (k : Int) (v : Nat) (h : Int) (xk : Int) (xv : Nat)
    (xh : Int) (zk : Int) (zv : Nat) (zh : Int) (a b c d : AVL_Node) :
    (∃ t1, right_rotation (mk k v h (mk xk xv xh a b) c) = some t1 ∧
        entries t1 = entries (mk k v h (mk xk xv xh a b) c) ∧
        (BST (mk k v h (mk xk xv xh a b) c) → BST t1)) ∧
      (∃ t1, left_rotation (mk k v h a (mk xk xv xh b c)) = some t1 ∧
        entries t1 = entries (mk k v h a (mk xk xv xh b c)) ∧
        (BST (mk k v h a (mk xk xv xh b c)) → BST t1)) ∧
      (∃ t1, right_left_rotation (mk k v h a (mk xk xv xh (mk zk zv zh b c) d)) = some t1 ∧
        entries t1 = entries (mk k v h a (mk xk xv xh (mk zk zv zh b c) d)) ∧
        (BST (mk k v h a (mk xk xv xh (mk zk zv zh b c) d)) → BST t1)) ∧
      (∃ t1, left_right_rotation (mk k v h (mk xk xv xh a (mk zk zv zh b c)) d) = some t1 ∧
        entries t1 = entries (mk k v h (mk xk xv xh a (mk zk zv zh b c)) d) ∧
        (BST (mk k v h (mk xk xv xh a (mk zk zv zh b c)) d) → BST t1)) := by
  refine ⟨⟨_, rfl, ?_⟩, ⟨_, rfl, ?_⟩, ⟨_, rfl, ?_⟩, ⟨_, rfl, ?_⟩⟩
  · have e := entries_right_rotation
      (rfl : right_rotation (mk k v h (mk xk xv xh a b) c) = some _)
    exact ⟨e, BST_of_entries_eq e⟩
  · have e := entries_left_rotation
      (rfl : left_rotation (mk k v h a (mk xk xv xh b c)) = some _)
    exact ⟨e, BST_of_entries_eq e⟩
  · have e := entries_right_left_rotation
      (rfl : right_left_rotation (mk k v h a (mk xk xv xh (mk zk zv zh b c) d)) = some _)
    exact ⟨e, BST_of_entries_eq e⟩
  · have e := entries_left_right_rotation
      (rfl : left_right_rotation (mk k v h (mk xk xv xh a (mk zk zv zh b c)) d) = some _)
    exact ⟨e, BST_of_entries_eq e⟩

/-! Successor, and the contents after one operation. -/

/-- C18: `successor` is the in-order successor.  On a node of a tree satisfying the BST
invariant whose right child is present, `successor` returns a node (the loop ends):
the first node of the right subtree in order, which has no left child, and whose key
is the smallest key of the node's subtree that is strictly greater than the node's
key. -/
theorem successor_is_inorder_successor (k : Int) (v : Nat) (h : Int) (l r : AVL_Node)
    (hb : BST (mk k v h l r)) (hr : r ≠ NULL) :
    ∃ sk sv sh sr, successor (mk k v h l r) = some (mk sk sv sh NULL sr) ∧
      (nodes r).head? = some (mk sk sv sh NULL sr) ∧
      sk ∈ keys (mk k v h l r) ∧ k < sk ∧
      ∀ x ∈ keys (mk k v h l r), k < x → sk ≤ x := by
  obtain ⟨hl, hrk, _, br⟩ := hb
  cases r with
  | NULL => exact absurd rfl hr
  | mk rk rv rh rl rr =>
    have hne : nodes (mk rk rv rh rl rr) ≠ [] := by simp [nodes]
    obtain ⟨m, hm⟩ : ∃ m, leftmost (mk rk rv rh rl rr) = some m := by
      rw [leftmost_eq_head]
      cases hn : nodes (mk rk rv rh rl rr) with
      | nil => exact absurd hn hne
      | cons a rest => exact ⟨a, rfl⟩
    obtain ⟨sk, sv, sh, sr, hshape, hmem, hmin⟩ := leftmost_spec _ m br hm
    subst hshape
    refine ⟨sk, sv, sh, sr, hm, ?_, ?_, hrk sk hmem, fun x hx hkx => ?_⟩
    · rw [← leftmost_eq_head, hm]
    · rw [keys_node k]
      exact List.mem_append_right _ (List.mem_cons_of_mem _ hmem)
    · rw [keys_node k] at hx
      rcases List.mem_append.mp hx with hx | hx
      · exact absurd (hl x hx) (not_lt.mpr (le_of_lt hkx))
      · rcases List.mem_cons.mp hx with rfl | hx
        · exact absurd hkx (lt_irrefl _)
        · exact hmin x hx

/-- Instance of `successor_is_inorder_successor`: the root `5` of the tree built from
`5, 3, 8, 1, 4, 7, 9`, whose successor is the leaf `7`. -/
theorem successor_is_inorder_successor_witness :
    BST (mk 5 50 3 (mk 3 30 2 (mk 1 10 1 NULL NULL) (mk 4 40 1 NULL NULL))
        (mk 8 80 2 (mk 7 70 1 NULL NULL) (mk 9 90 1 NULL NULL))) ∧
    mk 8 80 2 (mk 7 70 1 NULL NULL) (mk 9 90 1 NULL NULL) ≠ NULL ∧
    ∃ sk sv sh sr,
      successor (mk 5 50 3 (mk 3 30 2 (mk 1 10 1 NULL NULL) (mk 4 40 1 NULL NULL))
        (mk 8 80 2 (mk 7 70 1 NULL NULL) (mk 9 90 1 NULL NULL))) = some (mk sk sv sh NULL sr) ∧
      (nodes (mk 8 80 2 (mk 7 70 1 NULL NULL) (mk 9 90 1 NULL NULL))).head?
        = some (mk sk sv sh NULL sr) ∧
      sk ∈ keys (mk 5 50 3 (mk 3 30 2 (mk 1 10 1 NULL NULL) (mk 4 40 1 NULL NULL))
        (mk 8 80 2 (mk 7 70 1 NULL NULL) (mk 9 90 1 NULL NULL))) ∧ 5 < sk ∧
      ∀ x ∈ keys (mk 5 50 3 (mk 3 30 2 (mk 1 10 1 NULL NULL) (mk 4 40 1 NULL NULL))
        (mk 8 80 2 (mk 7 70 1 NULL NULL) (mk 9 90 1 NULL NULL))), 5 < x → sk ≤ x :=
  ⟨by decide, by decide,
    successor_is_inorder_successor 5 50 3
      (mk 3 30 2 (mk 1 10 1 NULL NULL) (mk 4 40 1 NULL NULL))
      (mk 8 80 2 (mk 7 70 1 NULL NULL) (mk 9 90 1 NULL NULL)) (by decide) (by decide)⟩

/-- C19: `insert` changes the contents exactly by the new entry whenever it completes.
On a tree satisfying the BST invariant (whatever its balance and cached heights), if
`insert` returns a tree then that tree satisfies the BST invariant and its in-order
entries are those of the input when the key was present, and those of the input with
`(key, value)` put between the entries of smaller key and the entries of larger key
when the key was absent. -/
theorem insert_changes_entries (t : AVL_Node) (key : Int) (value : Nat) (t1 : AVL_Node)
    (hb : BST t) (h : insert t key value = some t1) :
    BST t1 ∧
      (key ∈ keys t → entries t1 = entries t) ∧
      (key ∉ keys t → entries t1 =
        (entries t).filter (fun p => decide (p.1 < key)) ++
          (key, value) :: (entries t).filter (fun p => decide (key < p.1))) :=
  ⟨(insert_spec t key value t1 hb h).1, insert_entries t key value t1 hb h⟩

/-- Instance of `insert_changes_entries`: inserting key `30` into the right-leaning
chain `10, 20`, which `insert` rebalances by a `left_rotation`. -/
theorem insert_changes_entries_witness :
    BST (mk 10 1 2 NULL (mk 20 2 1 NULL NULL)) ∧
    insert (mk 10 1 2 NULL (mk 20 2 1 NULL NULL)) 30 3
      = some (mk 20 2 4 (mk 10 1 1 NULL NULL) (mk 30 3 1 NULL NULL)) ∧
    (BST (mk 20 2 4 (mk 10 1 1 NULL NULL) (mk 30 3 1 NULL NULL)) ∧
      (30 ∈ keys (mk 10 1 2 NULL (mk 20 2 1 NULL NULL)) →
        entries (mk 20 2 4 (mk 10 1 1 NULL NULL) (mk 30 3 1 NULL NULL))
          = entries (mk 10 1 2 NULL (mk 20 2 1 NULL NULL))) ∧
      (30 ∉ keys (mk 10 1 2 NULL (mk 20 2 1 NULL NULL)) →
        entries (mk 20 2 4 (mk 10 1 1 NULL NULL) (mk 30 3 1 NULL NULL)) =
          (entries (mk 10 1 2 NULL (mk 20 2 1 NULL NULL))).filter (fun p => decide (p.1 < 30))
            ++ (30, 3) ::
              (entries (mk 10 1 2 NULL (mk 20 2 1 NULL NULL))).filter
                (fun p => decide (30 < p.1)))) :=
  ⟨by decide, by decide,
    insert_changes_entries (mk 10 1 2 NULL (mk 20 2 1 NULL NULL)) 30 3
      (mk 20 2 4 (mk 10 1 1 NULL NULL) (mk 30 3 1 NULL NULL)) (by decide) (by decide)⟩

/-- C20: `delete` changes the contents exactly by the removed entry whenever it
completes.  On a tree satisfying the BST invariant (whatever its balance and cached
heights), if `delete` returns a tree then that tree satisfies the BST invariant and
its in-order entries are those of the input without the entry of `key`; they are
those of the input when `key` is absent; and when the root carries `key` and has two
children, the successor's key paired with the successor's own value is among
them. -/
theorem delete_changes_entries (t : AVL_Node) (key : Int) (t1 : AVL_Node)
    (hb : BST t) (h : delete t key = some t1) :
    BST t1 ∧
      entries t1 = (entries t).filter (fun p => decide (p.1 ≠ key)) ∧
      (key ∉ keys t → entries t1 = entries t) ∧
      (∀ v ht l r sk sv sh sl sr, t = mk key v ht l r → l ≠ NULL → r ≠ NULL →
        successor t = some (mk sk sv sh sl sr) → (sk, sv) ∈ entries t1) := by
  have he := delete_entries t key t1 hb h
  refine ⟨(delete_spec t key t1 hb h).1, he, fun hn => ?_, ?_⟩
  · rw [he]
    exact filter_ne_self fun x hx hxk => hn (hxk ▸ hx)
  · intro v ht l r sk sv sh sl sr ht1 _ _ hs
    subst ht1
    obtain ⟨_, hrk, _, br⟩ := hb
    simp only [successor] at hs
    obtain ⟨_, _, _, _, hm, hmem, _⟩ := leftmost_spec _ _ br hs
    have hin : (sk, sv) ∈ entries r := by
      rw [← leftmost_entries r sk sv sh sl sr br hs]
      exact List.mem_cons_self _ _
    rw [he]
    refine List.mem_filter.mpr ⟨?_, decide_eq_true (ne_of_gt (hrk sk ?_))⟩
    · simp only [entries, List.mem_append, List.mem_cons]
      exact Or.inr (Or.inr hin)
    · injection hm with e1
      rw [e1]
      exact hmem

/-- Instance of `delete_changes_entries`: deleting the root key `5`, a node with two
children, from `scenario_tree`. -/
theorem delete_changes_entries_witness :
    BST scenario_tree ∧
    delete scenario_tree 5 = some scenario_tree_deleted ∧
    (BST scenario_tree_deleted ∧
      entries scenario_tree_deleted
        = (entries scenario_tree).filter (fun p => decide (p.1 ≠ 5)) ∧
      (5 ∉ keys scenario_tree → entries scenario_tree_deleted = entries scenario_tree) ∧
      (∀ v ht l r sk sv sh sl sr, scenario_tree = mk 5 v ht l r → l ≠ NULL → r ≠ NULL →
        successor scenario_tree = some (mk sk sv sh sl sr) →
        (sk, sv) ∈ entries scenario_tree_deleted)) :=
  ⟨by decide, by decide,
    delete_changes_entries scenario_tree 5 scenario_tree_deleted (by decide) (by decide)⟩

end AVL
